import Mathlib

/-!
Verification of the 1-D diffusion-decay simulation repository.

The repository solves c_t = D c_xx - k c on [0, L] with Dirichlet boundary
values c(0) = c0 and c(L) = 0, by an explicit FTCS finite-difference scheme
(`numerical_solution_EE.py`), compares it against a closed-form eigenfunction
series (`analytical_solution.py`), and runs a convergence study computing RMS
errors and a log-log slope fit (`result_and_plot.py`).

The solver and convergence bookkeeping are embedded over ℚ (the float
arithmetic of the Python code, modelled exactly); the analytical series and the RMS error,
which use sqrt/sinh/sin/exp, are embedded over ℝ.
-/

/-- The parameter dictionary of `params.py`: five numeric fields. -/
structure Params where
  L : ℚ
  D : ℚ
  k : ℚ
  c0 : ℚ
  T_final : ℚ

/-- The concrete parameter values of `params.py`. -/
def referenceParams : Params :=
  { L := 5 / 1000, D := 1 / 10 ^ 10, k := 2 / 10 ^ 4, c0 := 1, T_final := 3600 * 2 }

/-- Validity invariant of a Parameter Set: all positive except k, which is
only required to be nonnegative. -/
def Params.Valid (p : Params) : Prop :=
  0 < p.L ∧ 0 < p.D ∧ 0 ≤ p.k ∧ 0 < p.T_final

lemma referenceParams_valid : referenceParams.Valid := by
  norm_num [referenceParams, Params.Valid]

/-- Grid spacing `dx = L / Nx` from `ftcs_solver`. -/
def dxOf (p : Params) (Nx : ℕ) : ℚ := p.L / Nx

/-- Time step `dt = T_final / Nt` from `ftcs_solver`. -/
def dtOf (p : Params) (Nt : ℕ) : ℚ := p.T_final / Nt

/-- Stability ratio `alpha = (D * dt) / (dx**2)` from `ftcs_solver`. -/
def alphaOf (p : Params) (Nx Nt : ℕ) : ℚ := p.D * dtOf p Nt / (dxOf p Nx) ^ 2

/-- The spatial grid `x = np.linspace(0, L, Nx + 1)`: node i sits at
i * (L / Nx). -/
def x_grid (p : Params) (Nx : ℕ) : List ℚ :=
  List.ofFn fun i : Fin (Nx + 1) => (i : ℕ) * (p.L / Nx)

/-- The initial field of `ftcs_solver`: `c = np.zeros(Nx + 1)` followed by
`c[0] = c0`. -/
def ftcs_init (p : Params) (Nx : ℕ) : List ℚ :=
  List.ofFn fun i : Fin (Nx + 1) =>
    if (i : ℕ) = 0 then p.c0 else 0

/-- One time step of `ftcs_solver`: the vectorized interior update
`c_new[1:-1] = c[1:-1] + alpha * (c[2:] - 2*c[1:-1] + c[:-2]) - k*dt*c[1:-1]`
followed by the boundary assignments `c_new[0] = c0` and `c_new[-1] = 0`.
Every entry of `c_new` is written in each pass (the slice covers 1..Nx-1 and
the two boundary writes cover 0 and Nx, the later write winning at overlap),
and every read is from the frozen field `c` of the previous level. -/
def ftcs_step (p : Params) (Nx Nt : ℕ) (c : List ℚ) : List ℚ :=
  List.ofFn fun i : Fin (Nx + 1) =>
    if (i : ℕ) = Nx then 0
    else if (i : ℕ) = 0 then p.c0
    else c.getD i 0
      + alphaOf p Nx Nt * (c.getD (i + 1) 0 - 2 * c.getD i 0 + c.getD (i - 1) 0)
      - p.k * dtOf p Nt * c.getD i 0

/-- The field after n iterations of the `for n in range(Nt)` loop of
`ftcs_solver` (n = 0 is the initial field). -/
def ftcs_field (p : Params) (Nx Nt : ℕ) : ℕ → List ℚ
  | 0 => ftcs_init p Nx
  | n + 1 => ftcs_step p Nx Nt (ftcs_field p Nx Nt n)

/-- What `ftcs_solver` hands back: the grid and final field it returns, plus
the stability warning it prints (modelled as a Boolean flag rather than a
side effect). -/
structure SolverResult where
  x : List ℚ
  c : List ℚ
  warning : Bool

/-- `ftcs_solver(p, Nx, Nt)` from `numerical_solution_EE.py`: computes alpha,
emits the warning when `alpha > stability_limit` with `stability_limit = 0.5`,
runs Nt explicit steps from the initial field, and returns `x, c`. -/
def ftcs_solver (p : Params) (Nx Nt : ℕ) : SolverResult :=
  { x := x_grid p Nx
    c := ftcs_field p Nx Nt Nt
    warning := decide (alphaOf p Nx Nt > 1 / 2) }

/-! ### Helper lemmas about the field entries -/

lemma getD_ofFn (n : ℕ) (f : Fin n → ℚ) (i : ℕ) (h : i < n) :
    (List.ofFn f).getD i 0 = f ⟨i, h⟩ := by
  rw [List.getD_eq_getElem?_getD, List.getElem?_ofFn]
  rw [List.ofFnNthVal, dif_pos h]
  rfl

lemma ftcs_init_getD (p : Params) (Nx : ℕ) (i : ℕ) (h : i < Nx + 1) :
    (ftcs_init p Nx).getD i 0 = if i = 0 then p.c0 else 0 := by
  rw [ftcs_init, getD_ofFn _ _ i h]

lemma ftcs_step_getD_interior (p : Params) (Nx Nt : ℕ) (c : List ℚ) (i : ℕ)
    (h0 : i ≠ 0) (hN : i ≠ Nx) (h : i < Nx + 1) :
    (ftcs_step p Nx Nt c).getD i 0 =
      c.getD i 0
        + alphaOf p Nx Nt * (c.getD (i + 1) 0 - 2 * c.getD i 0 + c.getD (i - 1) 0)
        - p.k * dtOf p Nt * c.getD i 0 := by
  rw [ftcs_step, getD_ofFn _ _ i h]
  simp [h0, hN]

lemma ftcs_step_getD_zero (p : Params) (Nx Nt : ℕ) (c : List ℚ) (hNx : Nx ≠ 0) :
    (ftcs_step p Nx Nt c).getD 0 0 = p.c0 := by
  rw [ftcs_step, getD_ofFn _ _ 0 (Nat.succ_pos Nx)]
  simp [Ne.symm hNx]

lemma ftcs_step_getD_last (p : Params) (Nx Nt : ℕ) (c : List ℚ) :
    (ftcs_step p Nx Nt c).getD Nx 0 = 0 := by
  rw [ftcs_step, getD_ofFn _ _ Nx (Nat.lt_succ_self Nx)]
  simp

lemma ftcs_field_length (p : Params) (Nx Nt m : ℕ) :
    (ftcs_field p Nx Nt m).length = Nx + 1 := by
  induction m with
  | zero => simp [ftcs_field, ftcs_init]
  | succ n _ => simp [ftcs_field, ftcs_step]

/-- C1: the Solver starts from the all-zero field with node 0 set to c0; each
of the Nt steps computes every interior node i (1 ≤ i ≤ Nx-1) as
next[i] = cur[i] + alpha*(cur[i+1] - 2*cur[i] + cur[i-1]) - k*dt*cur[i],
reading only values of the frozen current-level field, and the field after the
Nt-th step is returned together with the grid. -/
theorem ftcs_update_rule (p : Params) (_hp : p.Valid) (Nx Nt : ℕ)
    (hNx : 2 ≤ Nx) (_hNt : 1 ≤ Nt) :
    (∀ i, i ≤ Nx → (ftcs_field p Nx Nt 0).getD i 0 = if i = 0 then p.c0 else 0) ∧
    (∀ n, n < Nt → ∀ i, 1 ≤ i → i ≤ Nx - 1 →
      (ftcs_field p Nx Nt (n + 1)).getD i 0 =
        (ftcs_field p Nx Nt n).getD i 0
          + alphaOf p Nx Nt *
              ((ftcs_field p Nx Nt n).getD (i + 1) 0
                - 2 * (ftcs_field p Nx Nt n).getD i 0
                + (ftcs_field p Nx Nt n).getD (i - 1) 0)
          - p.k * dtOf p Nt * (ftcs_field p Nx Nt n).getD i 0) ∧
    (ftcs_solver p Nx Nt).c = ftcs_field p Nx Nt Nt ∧
    (ftcs_solver p Nx Nt).x = x_grid p Nx := by
  refine ⟨?_, ?_, rfl, rfl⟩
  · intro i hi
    exact ftcs_init_getD p Nx i (Nat.lt_succ_of_le hi)
  · intro n _ i h1 h2
    have hiN : i < Nx := lt_of_le_of_lt h2 (Nat.sub_lt (by omega) one_pos)
    exact ftcs_step_getD_interior p Nx Nt _ i (by omega) (by omega) (by omega)

/-- C1 witness: the update rule instantiated at the reference parameters with
Nx = 3, Nt = 2, step n = 0, interior node i = 1. -/
theorem ftcs_update_rule_witness :
    referenceParams.Valid ∧ 2 ≤ 3 ∧ 1 ≤ 2 ∧
    (ftcs_field referenceParams 3 2 1).getD 1 0 =
      (ftcs_field referenceParams 3 2 0).getD 1 0
        + alphaOf referenceParams 3 2 *
            ((ftcs_field referenceParams 3 2 0).getD 2 0
              - 2 * (ftcs_field referenceParams 3 2 0).getD 1 0
              + (ftcs_field referenceParams 3 2 0).getD 0 0)
        - referenceParams.k * dtOf referenceParams 2 *
            (ftcs_field referenceParams 3 2 0).getD 1 0 :=
  ⟨referenceParams_valid, by decide, by decide,
    (ftcs_update_rule referenceParams referenceParams_valid 3 2 (by decide) (by decide)).2.1
      0 (by decide) 1 (by decide) (by decide)⟩

/-- C2: the field of the Solver has exactly Nx + 1 entries after every step
(including the returned final field), with first entry c0 and last entry 0;
the boundaries are re-imposed by every step on any field and never evolved by
the interior update. -/
theorem ftcs_shape_and_boundaries (p : Params) (_hp : p.Valid) (Nx Nt : ℕ)
    (hNx : 2 ≤ Nx) (_hNt : 1 ≤ Nt) :
    (∀ m, (ftcs_field p Nx Nt m).length = Nx + 1 ∧
          (ftcs_field p Nx Nt m).getD 0 0 = p.c0 ∧
          (ftcs_field p Nx Nt m).getD Nx 0 = 0) ∧
    (∀ c, (ftcs_step p Nx Nt c).getD 0 0 = p.c0 ∧
          (ftcs_step p Nx Nt c).getD Nx 0 = 0) ∧
    (ftcs_solver p Nx Nt).c = ftcs_field p Nx Nt Nt ∧
    (ftcs_solver p Nx Nt).c.length = Nx + 1 := by
  have hNx0 : Nx ≠ 0 := by omega
  refine ⟨?_, fun c => ⟨ftcs_step_getD_zero p Nx Nt c hNx0, ftcs_step_getD_last p Nx Nt c⟩,
    rfl, ftcs_field_length p Nx Nt Nt⟩
  intro m
  refine ⟨ftcs_field_length p Nx Nt m, ?_⟩
  cases m with
  | zero =>
    constructor
    · rw [ftcs_field, ftcs_init_getD p Nx 0 (Nat.succ_pos Nx)]; simp
    · rw [ftcs_field, ftcs_init_getD p Nx Nx (Nat.lt_succ_self Nx)]; simp [hNx0]
  | succ n =>
    exact ⟨ftcs_step_getD_zero p Nx Nt _ hNx0, ftcs_step_getD_last p Nx Nt _⟩

/-- C2 witness: the shape and boundary invariants instantiated at the
reference parameters with Nx = 2, Nt = 1, after step m = 1. -/
theorem ftcs_shape_and_boundaries_witness :
    referenceParams.Valid ∧ 2 ≤ 2 ∧ 1 ≤ 1 ∧
    (ftcs_field referenceParams 2 1 1).length = 3 ∧
    (ftcs_field referenceParams 2 1 1).getD 0 0 = referenceParams.c0 ∧
    (ftcs_field referenceParams 2 1 1).getD 2 0 = 0 :=
  ⟨referenceParams_valid, by decide, by decide,
    ((ftcs_shape_and_boundaries referenceParams referenceParams_valid 2 1 (by decide) (by decide)).1 1).1,
    ((ftcs_shape_and_boundaries referenceParams referenceParams_valid 2 1 (by decide) (by decide)).1 1).2.1,
    ((ftcs_shape_and_boundaries referenceParams referenceParams_valid 2 1 (by decide) (by decide)).1 1).2.2⟩

/-- C3: the stability warning is raised if and only if alpha is strictly
greater than 0.5 (alpha = 0.5 exactly raises no warning), and it is non-fatal:
the grid and final field are returned to the caller in every case. -/
theorem ftcs_stability_warning_iff (p : Params) (Nx Nt : ℕ) :
    ((ftcs_solver p Nx Nt).warning = true ↔ alphaOf p Nx Nt > 1 / 2) ∧
    (ftcs_solver p Nx Nt).x = x_grid p Nx ∧
    (ftcs_solver p Nx Nt).c = ftcs_field p Nx Nt Nt := by
  refine ⟨?_, rfl, rfl⟩
  simp [ftcs_solver]

lemma alphaOf_quadratic_coupling (p : Params) (N : ℕ) (h : 1 ≤ N) :
    alphaOf p N (2 * N ^ 2) = p.D * p.T_final / (2 * p.L ^ 2) := by
  have hN : ((N : ℚ)) ≠ 0 := Nat.cast_ne_zero.mpr (by omega)
  unfold alphaOf dtOf dxOf
  push_cast
  by_cases hL : p.L = 0
  · simp [hL]
  · field_simp
    ring

/-- C6: with the coupling Nt = 2*N^2 of the convergence study, the stability
ratio alpha = D*(T_final/Nt)/(L/N)^2 equals the constant D*T_final/(2*L^2)
for every node count N >= 1; at the reference parameters this constant is
0.0144, which is at most 0.5. -/
theorem alpha_constant_across_resolutions (p : Params) (N : ℕ) (h : 1 ≤ N) :
    alphaOf p N (2 * N ^ 2) = p.D * p.T_final / (2 * p.L ^ 2) ∧
    alphaOf referenceParams N (2 * N ^ 2) = 144 / 10000 ∧
    alphaOf referenceParams N (2 * N ^ 2) ≤ 1 / 2 := by
  refine ⟨alphaOf_quadratic_coupling p N h, ?_, ?_⟩ <;>
    rw [alphaOf_quadratic_coupling referenceParams N h] <;>
    norm_num [referenceParams]

/-- C6 witness: the constant-alpha identity instantiated at the reference
parameters and the first tested node count N = 20. -/
theorem alpha_constant_across_resolutions_witness :
    1 ≤ 20 ∧ alphaOf referenceParams 20 (2 * 20 ^ 2) = 144 / 10000 :=
  ⟨by decide, (alpha_constant_across_resolutions referenceParams 20 (by decide)).2.1⟩

/-- C9: discrete maximum principle. For a valid Parameter Set with c0 > 0 and
a step satisfying 2*alpha + k*dt <= 1, every entry of the field stays in
[0, c0] at every step: the interior update is a sub-convex combination of
three current values and the boundaries are c0 and 0. -/
theorem ftcs_max_principle (p : Params) (hp : p.Valid) (hc0 : 0 < p.c0)
    (Nx Nt : ℕ) (hNx : 2 ≤ Nx) (hNt : 1 ≤ Nt)
    (hstab : 2 * alphaOf p Nx Nt + p.k * dtOf p Nt ≤ 1) :
    ∀ m i, i ≤ Nx →
      0 ≤ (ftcs_field p Nx Nt m).getD i 0 ∧
      (ftcs_field p Nx Nt m).getD i 0 ≤ p.c0 := by
  obtain ⟨hL, hD, hk, hT⟩ := hp
  have hNt' : (0 : ℚ) < (Nt : ℚ) := by
    exact_mod_cast Nat.pos_of_ne_zero (by omega)
  have hdt : 0 ≤ dtOf p Nt := le_of_lt (div_pos hT hNt')
  have halpha : 0 ≤ alphaOf p Nx Nt := by
    unfold alphaOf
    exact div_nonneg (mul_nonneg hD.le hdt) (sq_nonneg _)
  have hkdt : 0 ≤ p.k * dtOf p Nt := mul_nonneg hk hdt
  intro m
  induction m with
  | zero =>
    intro i _
    rw [ftcs_field, ftcs_init_getD p Nx i (by omega)]
    by_cases h0 : i = 0 <;> simp [h0, hc0.le]
  | succ n ih =>
    intro i hi
    rcases eq_or_ne i Nx with hiN | hiN
    · rw [show ftcs_field p Nx Nt (n + 1) = ftcs_step p Nx Nt (ftcs_field p Nx Nt n) from rfl,
        hiN, ftcs_step_getD_last]
      exact ⟨le_refl 0, hc0.le⟩
    rcases eq_or_ne i 0 with hi0 | hi0
    · rw [show ftcs_field p Nx Nt (n + 1) = ftcs_step p Nx Nt (ftcs_field p Nx Nt n) from rfl,
        hi0, ftcs_step_getD_zero p Nx Nt _ (by omega)]
      exact ⟨hc0.le, le_refl _⟩
    rw [show ftcs_field p Nx Nt (n + 1) = ftcs_step p Nx Nt (ftcs_field p Nx Nt n) from rfl,
      ftcs_step_getD_interior p Nx Nt _ i hi0 hiN (by omega)]
    obtain ⟨l0, u0⟩ := ih i hi
    obtain ⟨l1, u1⟩ := ih (i + 1) (by omega)
    obtain ⟨l2, u2⟩ := ih (i - 1) (by omega)
    set a := alphaOf p Nx Nt with ha
    set b := p.k * dtOf p Nt with hb
    set x0 := (ftcs_field p Nx Nt n).getD i 0 with hx0
    set x1 := (ftcs_field p Nx Nt n).getD (i + 1) 0 with hx1
    set x2 := (ftcs_field p Nx Nt n).getD (i - 1) 0 with hx2
    have hA : (0 : ℚ) ≤ 1 - 2 * a - b := by linarith
    constructor
    · nlinarith [mul_nonneg halpha l1, mul_nonneg halpha l2, mul_nonneg hA l0]
    · nlinarith [mul_le_mul_of_nonneg_left u1 halpha,
        mul_le_mul_of_nonneg_left u2 halpha,
        mul_le_mul_of_nonneg_left u0 hA,
        mul_nonneg hkdt hc0.le]

/-- C9 witness: the maximum principle instantiated at the reference
parameters with Nx = 2, Nt = 20, evaluated after step m = 1 at node i = 1. -/
theorem ftcs_max_principle_witness :
    referenceParams.Valid ∧ 0 < referenceParams.c0 ∧
    2 * alphaOf referenceParams 2 20 + referenceParams.k * dtOf referenceParams 20 ≤ 1 ∧
    0 ≤ (ftcs_field referenceParams 2 20 1).getD 1 0 ∧
    (ftcs_field referenceParams 2 20 1).getD 1 0 ≤ referenceParams.c0 :=
  ⟨referenceParams_valid, by norm_num [referenceParams],
    by norm_num [alphaOf, dtOf, dxOf, referenceParams],
    (ftcs_max_principle referenceParams referenceParams_valid
      (by norm_num [referenceParams]) 2 20 (by decide) (by decide)
      (by norm_num [alphaOf, dtOf, dxOf, referenceParams]) 1 1 (by decide)).1,
    (ftcs_max_principle referenceParams referenceParams_valid
      (by norm_num [referenceParams]) 2 20 (by decide) (by decide)
      (by norm_num [alphaOf, dtOf, dxOf, referenceParams]) 1 1 (by decide)).2⟩

/-! ### The analytical reference evaluator, over ℝ -/

/-- Decay length scale `gamma = np.sqrt(k / D)` from
`analytical_concentration`. -/
noncomputable def gammaOf (p : Params) : ℝ := Real.sqrt ((p.k : ℝ) / (p.D : ℝ))

/-- Steady-state term `c_infinity = c0 * np.sinh(gamma * (L - x)) /
np.sinh(gamma * L)` from `analytical_concentration`. -/
noncomputable def c_infinityOf (p : Params) (x : ℝ) : ℝ :=
  (p.c0 : ℝ) * Real.sinh (gammaOf p * ((p.L : ℝ) - x)) / Real.sinh (gammaOf p * (p.L : ℝ))

/-- Eigenvalue `lambda_n = (n * np.pi / L)**2` from
`analytical_concentration`. -/
noncomputable def lambdaOf (p : Params) (n : ℕ) : ℝ :=
  ((n : ℝ) * Real.pi / (p.L : ℝ)) ^ 2

/-- Fourier coefficient `b_n = (-2 * c0 * n * np.pi) / ((L**2) * ((k/D) +
lambda_n))` from `analytical_concentration`. -/
noncomputable def b_nOf (p : Params) (n : ℕ) : ℝ :=
  (-2 * (p.c0 : ℝ) * (n : ℝ) * Real.pi) /
    (((p.L : ℝ)) ^ 2 * ((p.k : ℝ) / (p.D : ℝ) + lambdaOf p n))

/-- Time decay factor `decay = np.exp(-(D * lambda_n + k) * t)` from
`analytical_concentration`. -/
noncomputable def decayOf (p : Params) (n : ℕ) (t : ℝ) : ℝ :=
  Real.exp (-((p.D : ℝ) * lambdaOf p n + (p.k : ℝ)) * t)

/-- Spatial shape `spatial = np.sin(n * np.pi * x / L)` from
`analytical_concentration`. -/
noncomputable def spatialOf (p : Params) (n : ℕ) (x : ℝ) : ℝ :=
  Real.sin ((n : ℝ) * Real.pi * x / (p.L : ℝ))

/-- Transient sum `c_transient = sum over n = 1..n_terms of b_n * spatial *
decay` from `analytical_concentration`. -/
noncomputable def c_transientOf (p : Params) (x t : ℝ) (n_terms : ℕ) : ℝ :=
  ∑ n in Finset.Icc 1 n_terms, b_nOf p n * spatialOf p n x * decayOf p n t

/-- `analytical_concentration(x, t, p, n_terms)` from
`analytical_solution.py`: the steady-state term plus the transient sum. -/
noncomputable def analytical_concentration (p : Params) (x t : ℝ) (n_terms : ℕ) : ℝ :=
  c_infinityOf p x + c_transientOf p x t n_terms

/-- A valid Parameter Set with zero decay rate, the degenerate input of
claim C5. -/
def zeroDecayParams : Params := { L := 1, D := 1, k := 0, c0 := 1, T_final := 1 }

/-- A convenient strictly positive Parameter Set used by witnesses. -/
def unitParams : Params := { L := 1, D := 1, k := 1, c0 := 1, T_final := 1 }

/-- C5 (code bug): at k = 0 the code computes gamma = 0 and evaluates the
quotient sinh(0)/sinh(0), which is 0/0. The division-by-zero convention of ℝ
in Lean turns this into 0 (NumPy produces NaN with a runtime warning); either
way the result differs from the pure-diffusion linear profile c0*(1 - x/L)
that the claim promises, shown here at x = L/2 where the profile is 1/2. -/
theorem c_infinity_zero_decay_not_linear :
    c_infinityOf zeroDecayParams (1 / 2) = 0 ∧
    (zeroDecayParams.c0 : ℝ) * (1 - (1 / 2) / (zeroDecayParams.L : ℝ)) = 1 / 2 ∧
    c_infinityOf zeroDecayParams (1 / 2) ≠
      (zeroDecayParams.c0 : ℝ) * (1 - (1 / 2) / (zeroDecayParams.L : ℝ)) := by
  have hg : gammaOf zeroDecayParams = 0 := by
    unfold gammaOf
    norm_num [zeroDecayParams]
  have h0 : c_infinityOf zeroDecayParams (1 / 2) = 0 := by
    unfold c_infinityOf
    rw [hg]
    simp
  refine ⟨h0, by norm_num [zeroDecayParams], ?_⟩
  rw [h0]
  norm_num [zeroDecayParams]

/-- C10: in exact arithmetic the Reference Evaluator satisfies both Dirichlet
boundary conditions exactly at all times: it returns c0 at x = 0 (the steady
term is c0 * sinh(gamma*L) / sinh(gamma*L) and every transient mode carries
sin 0 = 0) and 0 at x = L (sinh(gamma*(L - L)) = 0 and sin(n*pi) = 0). -/
theorem analytical_boundary_values (p : Params) (hp : p.Valid) (hk : 0 < p.k)
    (t : ℝ) (_ht : 0 ≤ t) (n_terms : ℕ) (_hn : 1 ≤ n_terms) :
    analytical_concentration p 0 t n_terms = (p.c0 : ℝ) ∧
    analytical_concentration p (p.L : ℝ) t n_terms = 0 := by
  obtain ⟨hL, hD, _, _⟩ := hp
  have hLR : (0 : ℝ) < (p.L : ℝ) := by exact_mod_cast hL
  have hDR : (0 : ℝ) < (p.D : ℝ) := by exact_mod_cast hD
  have hkR : (0 : ℝ) < (p.k : ℝ) := by exact_mod_cast hk
  have hgpos : 0 < gammaOf p := Real.sqrt_pos.mpr (div_pos hkR hDR)
  have hsinh : Real.sinh (gammaOf p * (p.L : ℝ)) ≠ 0 :=
    Real.sinh_ne_zero.mpr (ne_of_gt (mul_pos hgpos hLR))
  constructor
  · unfold analytical_concentration
    have hsteady : c_infinityOf p 0 = (p.c0 : ℝ) := by
      unfold c_infinityOf
      rw [sub_zero, mul_div_assoc, div_self hsinh, mul_one]
    have htrans : c_transientOf p 0 t n_terms = 0 := by
      unfold c_transientOf
      apply Finset.sum_eq_zero
      intro n _
      unfold spatialOf
      simp
    rw [hsteady, htrans, add_zero]
  · unfold analytical_concentration
    have hsteady : c_infinityOf p (p.L : ℝ) = 0 := by
      unfold c_infinityOf
      rw [sub_self, mul_zero, Real.sinh_zero, mul_zero, zero_div]
    have htrans : c_transientOf p (p.L : ℝ) t n_terms = 0 := by
      unfold c_transientOf
      apply Finset.sum_eq_zero
      intro n _
      unfold spatialOf
      rw [mul_div_assoc, div_self (ne_of_gt hLR), mul_one, Real.sin_nat_mul_pi,
        mul_zero, zero_mul]
    rw [hsteady, htrans, add_zero]

/-- C10 witness: exact boundary values of the Reference Evaluator at the unit
Parameter Set, t = 0, one series term. -/
theorem analytical_boundary_values_witness :
    unitParams.Valid ∧ 0 < unitParams.k ∧ (0 : ℝ) ≤ 0 ∧ 1 ≤ 1 ∧
    analytical_concentration unitParams 0 0 1 = (unitParams.c0 : ℝ) ∧
    analytical_concentration unitParams (unitParams.L : ℝ) 0 1 = 0 :=
  ⟨by norm_num [unitParams, Params.Valid], by norm_num [unitParams], le_refl 0,
    le_refl 1,
    (analytical_boundary_values unitParams (by norm_num [unitParams, Params.Valid])
      (by norm_num [unitParams]) 0 (le_refl 0) 1 (le_refl 1)).1,
    (analytical_boundary_values unitParams (by norm_num [unitParams, Params.Valid])
      (by norm_num [unitParams]) 0 (le_refl 0) 1 (le_refl 1)).2⟩

/-! ### RMS error and the convergence study bookkeeping -/

/-- RMS error `np.sqrt(np.mean((c_num_conv - c_ana_conv)**2))` from
`result_and_plot.py`: square root of the mean of squared entrywise
differences of two same-length sequences. -/
noncomputable def rmsError (u v : List ℝ) : ℝ :=
  Real.sqrt ((((u.zip v).map fun q => (q.1 - q.2) ^ 2).sum) / ((u.zip v).length))

lemma list_sum_zero_iff (l : List ℝ) (h : ∀ x ∈ l, 0 ≤ x) :
    l.sum = 0 ↔ ∀ x ∈ l, x = 0 := by
  induction l with
  | nil => simp
  | cons a l ih =>
    have ha : 0 ≤ a := h a (List.mem_cons_self a l)
    have hl : ∀ x ∈ l, 0 ≤ x := fun x hx => h x (List.mem_cons_of_mem a hx)
    have hs : 0 ≤ l.sum := List.sum_nonneg hl
    rw [List.sum_cons, add_eq_zero_iff_of_nonneg ha hs, ih hl]
    simp

lemma zip_self_eq_map (l : List ℝ) : l.zip l = l.map fun a => (a, a) := by
  induction l with
  | nil => rfl
  | cons a l ih => simp [List.zip_cons_cons, ih]

lemma eq_of_zip_fst_eq_snd (u : List ℝ) : ∀ v : List ℝ, u.length = v.length →
    (∀ q ∈ u.zip v, q.1 = q.2) → u = v := by
  induction u with
  | nil => intro v hlen _; cases v with
    | nil => rfl
    | cons b v => simp at hlen
  | cons a u ih =>
    intro v hlen h
    cases v with
    | nil => simp at hlen
    | cons b v =>
      have hab : a = b := h (a, b) (by simp [List.zip_cons_cons])
      have : u = v := by
        apply ih v (by simpa using hlen)
        intro q hq
        exact h q (by simp [List.zip_cons_cons, hq])
      rw [hab, this]

/-- C8: the RMS error is the square root of the mean of the squared
differences over all nodes, is invariant under a simultaneous permutation of
both sequences, and vanishes exactly when the two sequences agree at every
node. -/
theorem rmsError_spec (u v : List ℝ) (hlen : u.length = v.length) (hpos : 0 < u.length) :
    rmsError u v =
      Real.sqrt ((((u.zip v).map fun q => (q.1 - q.2) ^ 2).sum) / u.length) ∧
    (∀ w z : List ℝ, w.length = z.length → (u.zip v).Perm (w.zip z) →
       rmsError u v = rmsError w z) ∧
    (rmsError u v = 0 ↔ u = v) := by
  have hzlen : (u.zip v).length = u.length := by
    rw [List.length_zip, hlen, min_self]
  refine ⟨by rw [rmsError, hzlen], ?_, ?_⟩
  · intro w z _ hperm
    unfold rmsError
    rw [hperm.length_eq, (hperm.map fun q => (q.1 - q.2) ^ 2).sum_eq]
  · constructor
    · intro h
      have hnn : ∀ x ∈ (u.zip v).map fun q => (q.1 - q.2) ^ 2, (0 : ℝ) ≤ x := by
        intro x hx
        obtain ⟨q, _, rfl⟩ := List.mem_map.mp hx
        exact sq_nonneg _
      have hsum_nonneg : 0 ≤ ((u.zip v).map fun q => (q.1 - q.2) ^ 2).sum :=
        List.sum_nonneg hnn
      have hlen_pos : (0 : ℝ) < ((u.zip v).length : ℝ) := by
        rw [hzlen]; exact_mod_cast hpos
      rw [rmsError, Real.sqrt_eq_zero'] at h
      have hdivzero :
          (((u.zip v).map fun q => (q.1 - q.2) ^ 2).sum) / ((u.zip v).length : ℝ) = 0 :=
        le_antisymm h (div_nonneg hsum_nonneg hlen_pos.le)
      have hsum : (((u.zip v).map fun q => (q.1 - q.2) ^ 2).sum) = 0 := by
        rcases div_eq_zero_iff.mp hdivzero with h' | h'
        · exact h'
        · exact absurd h' (ne_of_gt hlen_pos)
      have hall := (list_sum_zero_iff _ hnn).mp hsum
      apply eq_of_zip_fst_eq_snd u v hlen
      intro q hq
      have hq2 := hall ((q.1 - q.2) ^ 2) (List.mem_map_of_mem _ hq)
      have hq0 : q.1 - q.2 = 0 := sq_eq_zero_iff.mp hq2
      linarith
    · intro h
      subst h
      unfold rmsError
      rw [zip_self_eq_map]
      have hzero : ((u.map fun a => (a, a)).map fun q => (q.1 - q.2) ^ 2).sum = 0 := by
        apply List.sum_eq_zero
        intro x hx
        simp [List.map_map] at hx
        obtain ⟨a, _, rfl⟩ := hx
        ring
      rw [hzero, zero_div, Real.sqrt_zero]

/-- C8 witness: the RMS characterization instantiated at the pair of equal
two-entry sequences. -/
theorem rmsError_spec_witness :
    [(1 : ℝ), 2].length = [(1 : ℝ), 2].length ∧ 0 < [(1 : ℝ), 2].length ∧
    (rmsError [(1 : ℝ), 2] [(1 : ℝ), 2] = 0 ↔ ([(1 : ℝ), 2] : List ℝ) = [(1 : ℝ), 2]) :=
  ⟨rfl, by decide,
    (rmsError_spec [(1 : ℝ), 2] [(1 : ℝ), 2] rfl (by decide)).2.2⟩

/-- Degree-1 least-squares fit `np.polyfit(log_dx, log_err, 1)` from
`result_and_plot.py`, written through its normal equations: slope and
intercept are quotients by the determinant n*sum(x^2) - (sum x)^2 of the
normal system. When that determinant vanishes the fit is rank deficient and
has no well-determined solution; NumPy raises a TypeError on an empty input
and emits a RankWarning together with a minimum-norm pseudo-solution on a
single point. The model returns none in that degenerate case. -/
noncomputable def slopeFit (pts : List (ℝ × ℝ)) : Option (ℝ × ℝ) :=
  let n : ℝ := pts.length
  let sx := (pts.map Prod.fst).sum
  let sy := (pts.map Prod.snd).sum
  let sxx := (pts.map fun q => q.1 ^ 2).sum
  let sxy := (pts.map fun q => q.1 * q.2).sum
  if n * sxx - sx ^ 2 = 0 then none
  else some ((n * sxy - sx * sy) / (n * sxx - sx ^ 2),
             (sy * sxx - sx * sxy) / (n * sxx - sx ^ 2))

/-- C4 (code bug): with fewer than two records the slope fit has no
well-determined solution (the normal system of the degree-1 fit is singular).
The code reaches `np.polyfit` unguarded in this situation; it does not report
the study as inconclusive, and on an empty record list the call raises. -/
theorem slopeFit_undefined_below_two_records (pts : List (ℝ × ℝ))
    (h : pts.length < 2) : slopeFit pts = none := by
  match pts, h with
  | [], _ => simp [slopeFit]
  | [q], _ =>
    unfold slopeFit
    simp only [List.length_cons, List.length_nil, List.map, List.sum_cons, List.sum_nil]
    rw [if_pos]
    push_cast
    ring

/-- C4 witness: the degenerate fit evaluated on the empty record list. -/
theorem slopeFit_undefined_witness :
    List.length ([] : List (ℝ × ℝ)) < 2 ∧ slopeFit [] = none :=
  ⟨by decide, slopeFit_undefined_below_two_records [] (by decide)⟩

/-- The record-gathering loop `for N in grids` of `result_and_plot.py`: for
each N it runs the solver and the reference evaluator and computes the RMS
error; if that error is not finite it breaks out of the loop without
appending, otherwise it appends the record (dx, error) = (L/N, error). The
float error computation, whose only role here is that it may overflow to a
non-finite value, is abstracted as the oracle err (none standing for a
non-finite result), since the exact arithmetic of this embedding cannot
overflow; the control flow is translated from the source. -/
def gatherRecords (p : Params) (err : ℕ → Option ℚ) : List ℕ → List (ℚ × ℚ)
  | [] => []
  | N :: rest =>
    match err N with
    | none => []
    | some e => (p.L / N, e) :: gatherRecords p err rest

/-- The slope computation of `result_and_plot.py` applied to the gathered
records: `np.polyfit(np.log(dx_values), np.log(errors), 1)`. -/
noncomputable def convergenceSlope (p : Params) (err : ℕ → Option ℚ) (ns : List ℕ) :
    Option (ℝ × ℝ) :=
  slopeFit ((gatherRecords p err ns).map fun r => (Real.log (r.1 : ℝ), Real.log (r.2 : ℝ)))

lemma gatherRecords_append_of_none (p : Params) (err : ℕ → Option ℚ) (N : ℕ)
    (h : err N = none) (ns2 : List ℕ) :
    ∀ ns1, gatherRecords p err (ns1 ++ N :: ns2) = gatherRecords p err ns1 := by
  intro ns1
  induction ns1 with
  | nil => simp [gatherRecords, h]
  | cons M rest ih =>
    simp only [List.cons_append, gatherRecords]
    cases err M with
    | none => rfl
    | some e => exact congrArg _ ih

lemma gatherRecords_sourced (p : Params) (err : ℕ → Option ℚ) :
    ∀ l r, r ∈ gatherRecords p err l → ∃ M, M ∈ l ∧ err M = some r.2 := by
  intro l
  induction l with
  | nil => simp [gatherRecords]
  | cons N rest ih =>
    intro r hr
    rw [gatherRecords] at hr
    cases hE : err N with
    | none => rw [hE] at hr; simp at hr
    | some e =>
      rw [hE] at hr
      rcases List.mem_cons.mp hr with h1 | h2
      · exact ⟨N, List.mem_cons_self N rest, by rw [hE, h1]⟩
      · obtain ⟨M, hM, hMe⟩ := ih r h2
        exact ⟨M, List.mem_cons_of_mem N hM, hMe⟩

/-- C7: if the error at resolution N is non-finite, the gathered records are
exactly those of the resolutions before N (no further resolution is
processed), every gathered record carries a finite error value from one of
those earlier resolutions, and the slope fit is computed over that prefix
only: a non-finite point never enters the fit. -/
theorem convergence_study_skips_nonfinite (p : Params) (err : ℕ → Option ℚ)
    (ns1 ns2 : List ℕ) (N : ℕ) (h : err N = none) :
    gatherRecords p err (ns1 ++ N :: ns2) = gatherRecords p err ns1 ∧
    (∀ r ∈ gatherRecords p err (ns1 ++ N :: ns2), ∃ M, M ∈ ns1 ∧ err M = some r.2) ∧
    convergenceSlope p err (ns1 ++ N :: ns2) = convergenceSlope p err ns1 := by
  have h1 := gatherRecords_append_of_none p err N h ns2 ns1
  refine ⟨h1, ?_, ?_⟩
  · intro r hr
    rw [h1] at hr
    exact gatherRecords_sourced p err ns1 r hr
  · unfold convergenceSlope
    rw [h1]

/-- An error oracle that is finite everywhere except at resolution 40, used
to instantiate the C7 theorem. -/
def errProbe : ℕ → Option ℚ := fun M => if M = 40 then none else some 1

/-- C7 witness: with the error non-finite at the middle resolution of the
list 20, 40, 80, gathering stops after the first resolution. -/
theorem convergence_study_skips_nonfinite_witness :
    errProbe 40 = none ∧
    gatherRecords referenceParams errProbe [20, 40, 80] =
      gatherRecords referenceParams errProbe [20] :=
  ⟨rfl, (convergence_study_skips_nonfinite referenceParams errProbe [20] [80] 40 rfl).1⟩
